import Mathlib

/-!
Verification development for the `ya_glm` / `yaglm` repository.

Shallow embedding of:
- `ya_glm/glm_pen_max_lasso.py` (penalty-strength path-top bounds and
  gradients of the unpenalized losses at coefficient zero),
- `yaglm/opt/constraint/convex.py` (projection operators: simplex and
  L1-ball projections),
- `yaglm/solver/Cvxpy.py` (generic convex-solver backend adapter).

Vectors are `List ℚ` and matrices are row-major `List (List ℚ)`
(numpy arrays are rectangular; ragged lists never arise on the inputs
considered here).  Floating point arithmetic is idealized as exact
rational arithmetic; `np.finfo(float).eps` is the exact rational
`2 ^ (-52)`.  Python exceptions are modelled with `Except`: each
operation that can raise returns `Except Err _`.
-/

abbrev Vec := List ℚ
abbrev Mat := List (List ℚ)

deriving instance DecidableEq for Except

/-- Python/numpy exceptions raised by the embedded code.
`numericalDegeneracy` stands for the `ValueError` numpy and Python raise on a
maximum/minimum over an empty selection (the spec's NumericalDegeneracy
category); `typeError` covers missing/unexpected keyword arguments;
`unsupportedLoss` is the `NotImplementedError` of `grad_at_zero`;
`missingDependency` is the `ModuleNotFoundError` of `import cvxpy`. -/
inductive Err where
  | numericalDegeneracy : Err
  | unsupportedLoss : String → Err
  | typeError : Err
  | indexError : Err
  | dimensionMismatch : Err
  | assertionError : Err
  | missingDependency : Err
  | notApplicable : Err
  | attributeError : Err
deriving DecidableEq, Repr

/-- Dot product of two rational vectors (`np.dot` on equal-length vectors). -/
def dot (a b : Vec) : ℚ := (List.zipWith (· * ·) a b).sum

/-- Number of columns of a (rectangular) row-major matrix: `m.shape[1]`. -/
def ncols (m : Mat) : ℕ := (m.headD []).length

/-- Column `c` of a matrix, `m[:, c]`.  The default `0` is never used on the
rectangular matrices numpy produces. -/
def colQ (m : Mat) (c : ℕ) : Vec := m.map (fun r => r.getD c 0)

/-- Matrix transpose, `m.T`. -/
def transpose (m : Mat) : Mat := (List.range (ncols m)).map (fun j => colQ m j)

/-- Matrix-vector product `A @ x`. -/
def matVec (A : Mat) (x : Vec) : Vec := A.map (fun r => dot r x)

/-- Matrix-matrix product `A @ B`. -/
def matMul (A B : Mat) : Mat := A.map (fun r => (transpose B).map (fun c => dot r c))

/-- Elementwise map over a matrix. -/
def matMap (m : Mat) (f : ℚ → ℚ) : Mat := m.map (fun r => r.map f)

/-- `np.mean` of a vector (sum over length; the empty case never arises on
the inputs considered here, where `ℚ` division by zero returns `0`). -/
def meanV (v : Vec) : ℚ := v.sum / v.length

/-- `np.mean` of a matrix: mean over all entries. -/
def meanAll (m : Mat) : ℚ := (m.map List.sum).sum / (m.length * ncols m)

/-- `m.mean(axis=0)`: per-column means of a matrix. -/
def colMeans (m : Mat) : Vec := (List.range (ncols m)).map (fun j => meanV (colQ m j))

/-- Python's `max` / numpy's `.max()` on a list of numbers: raises on an
empty list (`ValueError`), otherwise returns the maximum. -/
def npMax (l : List ℚ) : Except Err ℚ :=
  match l with
  | [] => .error .numericalDegeneracy
  | x :: xs => .ok (xs.foldl max x)

/-- numpy's `.min()` on a list of numbers: raises on an empty list. -/
def npMin (l : List ℚ) : Except Err ℚ :=
  match l with
  | [] => .error .numericalDegeneracy
  | x :: xs => .ok (xs.foldl min x)

/-- Sequencing of a Python `for` loop that appends `f x` for each `x`,
propagating the first raised exception. -/
def collectM {α β : Type} (l : List α) (f : α → Except Err β) : Except Err (List β) :=
  match l with
  | [] => .ok []
  | x :: xs => do
      let y ← f x
      let ys ← collectM xs f
      .ok (y :: ys)

/-- An array that is either 1-d (vector) or 2-d (matrix), as numpy
distinguishes by `ndim`.  The response `y` and the gradients have this type. -/
inductive Arr where
  | vec : Vec → Arr
  | mat : Mat → Arr
deriving DecidableEq, Repr

/-- Expect a 1-d array (shape error otherwise). -/
def expectVec (a : Arr) : Except Err Vec :=
  match a with
  | .vec v => .ok v
  | .mat _ => .error .dimensionMismatch

/-- Expect a 2-d array (shape error otherwise). -/
def expectMat (a : Arr) : Except Err Mat :=
  match a with
  | .vec _ => .error .dimensionMismatch
  | .mat m => .ok m

/-- One entry of a weights array: a real value, `NaN`, or `None`
(`is_nonzero_weight` tests all three). -/
inductive Wt where
  | null : Wt
  | nan : Wt
  | val : ℚ → Wt
deriving DecidableEq, Repr

/-- A weights array aligned to the coefficient shape: per-feature vector or
feature × response matrix. -/
inductive WArr where
  | wvec : List Wt → WArr
  | wmat : List (List Wt) → WArr
deriving DecidableEq, Repr

/-- `np.finfo(float).eps`, exactly `2 ^ (-52)`. -/
def eps : ℚ := 1 / 2 ^ 52

/-- `is_nonzero_weight` (glm_pen_max_lasso.py, lines 244-253): an entry is
penalized iff it is not `None`, not `NaN`, and `abs(w) > np.finfo(float).eps`. -/
def is_nonzero_weight (w : Wt) : Bool :=
  match w with
  | .null => false
  | .nan => false
  | .val q => decide (eps < |q|)

/-- `get_is_pen_mask` (lines 256-273) on a weights vector: the boolean mask
of penalized entries. -/
def get_is_pen_mask (weights : List Wt) : List Bool :=
  weights.map is_nonzero_weight

/-- The numeric value of a weight entry (`0` is junk for `None`/`NaN`,
which are always screened out by the penalized mask before division). -/
def wtVal (w : Wt) : ℚ :=
  match w with
  | .val q => q
  | _ => 0

/-- `values[penalized_mask] / weights[penalized_mask]`: keep the entries at
penalized positions and divide each by its weight. -/
def maskedDivide (values : Vec) (weights : List Wt) : Vec :=
  (values.zip weights).filterMap
    (fun p => if is_nonzero_weight p.2 then some (p.1 / wtVal p.2) else none)

/-- Modelled from the spec: `huber_grad` (`ya_glm.opt.huber_regression`, not
under `src/`) is the robust Huber gradient: the residual clipped at the knot,
`r ↦ r` for `|r| ≤ knot` and `knot · sign(r)` otherwise, elementwise. -/
def huber_grad_1 (knot r : ℚ) : ℚ :=
  if |r| ≤ knot then r else if 0 < r then knot else -knot

/-- Modelled from the spec: `tilted_L1_grad` (`ya_glm.opt.quantile_regression`,
not under `src/`) is the gradient of the tilted absolute (pinball) loss at
quantile level `q`: `q` on positive residuals, `q - 1` on negative ones,
a subgradient element `0` at zero. -/
def tilted_L1_grad_1 (q r : ℚ) : ℚ :=
  if 0 < r then q else if r < 0 then q - 1 else 0

/-- Modelled from the spec: `np.quantile` with the default linear
interpolation, used for the quantile loss's optimal null intercept
("the given quantile of y"). -/
def npQuantile (v : Vec) (q : ℚ) : ℚ :=
  let s := List.insertionSort (· ≤ ·) v
  let h := q * ((s.length : ℚ) - 1)
  let i := h.floor.toNat
  s.getD i 0 + (h - i) * (s.getD (i + 1) (s.getD i 0) - s.getD i 0)

/-- Required keyword argument lookup for a `**loss_kws` call: missing or
unexpected keyword arguments raise a `TypeError`. -/
def reqOnlyKw (kws : List (String × ℚ)) (name : String) : Except Err ℚ :=
  match kws.lookup name with
  | none => .error .typeError
  | some v => if kws.all (fun p => p.1 = name) then .ok v else .error .typeError

/-- A `**loss_kws` call into a function taking no extra keyword arguments:
any keyword raises a `TypeError`. -/
def reqNoKw (kws : List (String × ℚ)) : Except Err Unit :=
  if kws = [] then .ok () else .error .typeError

/-- `g0_lin_reg` (lines 136-142): `X.T @ (y - mean(y))` (or `X.T @ y` without
intercept), divided by `n_samples`.  On a 2-d `y`, `np.mean(y)` is the scalar
mean of all entries and the product is a matrix product. -/
def g0_lin_reg (X : Mat) (y : Arr) (fit_intercept : Bool) : Except Err Arr :=
  match y with
  | .vec yv =>
      let g := if fit_intercept then matVec (transpose X) (yv.map (fun a => a - meanV yv))
               else matVec (transpose X) yv
      .ok (.vec (g.map (fun a => a / (X.length : ℚ))))
  | .mat ym =>
      let g := if fit_intercept then matMul (transpose X) (matMap ym (fun a => a - meanAll ym))
               else matMul (transpose X) ym
      .ok (.mat (matMap g (fun a => a / (X.length : ℚ))))

/-- `g0_lin_reg_mr` (lines 145-151): like `g0_lin_reg` but centering with
`y.mean(axis=0)` (per-column means; on a 1-d `y` this is the scalar mean). -/
def g0_lin_reg_mr (X : Mat) (y : Arr) (fit_intercept : Bool) : Except Err Arr :=
  match y with
  | .vec yv =>
      let g := if fit_intercept then matVec (transpose X) (yv.map (fun a => a - meanV yv))
               else matVec (transpose X) yv
      .ok (.vec (g.map (fun a => a / (X.length : ℚ))))
  | .mat ym =>
      let mu := colMeans ym
      let yc := if fit_intercept then ym.map (fun r => List.zipWith (fun a m => a - m) r mu)
                else ym
      .ok (.mat (matMap (matMul (transpose X) yc) (fun a => a / (X.length : ℚ))))

/-- `g0_huber_reg` (lines 154-160): the Huber gradient of the (optionally
centered) response, divided by `n_samples`.  Note the source applies no
`X.T @` here; the embedding follows the source. -/
def g0_huber_reg (X : Mat) (y : Arr) (fit_intercept : Bool) (knot : ℚ) : Except Err Arr :=
  match y with
  | .vec yv =>
      let r := if fit_intercept then yv.map (fun a => a - meanV yv) else yv
      .ok (.vec ((r.map (huber_grad_1 knot)).map (fun a => a / (X.length : ℚ))))
  | .mat ym =>
      let r := if fit_intercept then matMap ym (fun a => a - meanAll ym) else ym
      .ok (.mat (matMap (matMap r (huber_grad_1 knot)) (fun a => a / (X.length : ℚ))))

/-- `g0_huber_reg_mr` (lines 163-169): centering with `y.mean(axis=0)`. -/
def g0_huber_reg_mr (X : Mat) (y : Arr) (fit_intercept : Bool) (knot : ℚ) : Except Err Arr :=
  match y with
  | .vec yv =>
      let r := if fit_intercept then yv.map (fun a => a - meanV yv) else yv
      .ok (.vec ((r.map (huber_grad_1 knot)).map (fun a => a / (X.length : ℚ))))
  | .mat ym =>
      let mu := colMeans ym
      let r := if fit_intercept then ym.map (fun row => List.zipWith (fun a m => a - m) row mu)
               else ym
      .ok (.mat (matMap (matMap r (huber_grad_1 knot)) (fun a => a / (X.length : ℚ))))

/-- `g0_log_reg` (lines 172-179): `X.T @ (mean(y) - y)` with intercept,
`X.T @ (0.5 - y)` without, divided by `n_samples`. -/
def g0_log_reg (X : Mat) (y : Arr) (fit_intercept : Bool) : Except Err Arr :=
  match y with
  | .vec yv =>
      let r := if fit_intercept then yv.map (fun a => meanV yv - a)
               else yv.map (fun a => 1 / 2 - a)
      .ok (.vec ((matVec (transpose X) r).map (fun a => a / (X.length : ℚ))))
  | .mat ym =>
      let r := if fit_intercept then matMap ym (fun a => meanAll ym - a)
               else matMap ym (fun a => 1 / 2 - a)
      .ok (.mat (matMap (matMul (transpose X) r) (fun a => a / (X.length : ℚ))))

/-- `g0_multinomial` (lines 182-192): class probabilities are the per-class
sample means (uniform without intercept); the gradient is
`X.T @ (probs - y) / n_samples`.  A 1-d `y` raises (`y.shape[1]`). -/
def g0_multinomial (X : Mat) (y : Arr) (fit_intercept : Bool) : Except Err Arr :=
  match y with
  | .vec _ => .error .indexError
  | .mat ym =>
      let cls := if fit_intercept then colMeans ym
                 else List.replicate (ncols ym) ((1 : ℚ) / (ncols ym : ℚ))
      let diff := ym.map (fun row => List.zipWith (fun c a => c - a) cls row)
      .ok (.mat (matMap (matMul (transpose X) diff) (fun a => a / (X.length : ℚ))))

/-- `g0_poisson` (lines 195-204): prediction `mean(y)` with intercept,
`np.ones(len(y))` without; gradient `X.T @ (pred - y) / n_samples`.
Broadcasting `np.ones(n)` against a 2-d `y` only succeeds when the column
count equals `n` (numpy broadcasting), in which case it subtracts `1`
entrywise. -/
def g0_poisson (X : Mat) (y : Arr) (fit_intercept : Bool) : Except Err Arr :=
  match y with
  | .vec yv =>
      let r := if fit_intercept then yv.map (fun a => meanV yv - a)
               else yv.map (fun a => 1 - a)
      .ok (.vec ((matVec (transpose X) r).map (fun a => a / (X.length : ℚ))))
  | .mat ym =>
      if fit_intercept then
        .ok (.mat (matMap (matMul (transpose X) (matMap ym (fun a => meanAll ym - a)))
          (fun a => a / (X.length : ℚ))))
      else if ncols ym = ym.length then
        .ok (.mat (matMap (matMul (transpose X) (matMap ym (fun a => 1 - a)))
          (fun a => a / (X.length : ℚ))))
      else .error .dimensionMismatch

/-- `get_g0_multi_response` (lines 225-241): stacks a single-response
gradient getter column-wise over the responses of a 2-d `y`
(`np.vstack([...]).T`). -/
def get_g0_multi_response (g0_getter : Mat → Arr → Bool → Except Err Arr)
    (X : Mat) (ym : Mat) (fit_intercept : Bool) : Except Err Arr := do
  let cols ← collectM (List.range (ncols ym))
    (fun j => g0_getter X (.vec (colQ ym j)) fit_intercept >>= expectVec)
  .ok (.mat (transpose cols))

/-- `g0_poisson_mr` (lines 207-210): the column-stacked multi-response
Poisson gradient.  Note: this function is never reached by `grad_at_zero`'s
dispatch in the source. -/
def g0_poisson_mr (X : Mat) (ym : Mat) (fit_intercept : Bool)
    (loss_kws : List (String × ℚ)) : Except Err Arr := do
  let _ ← reqNoKw loss_kws
  get_g0_multi_response g0_poisson X ym fit_intercept

/-- `g0_quantile` (lines 213-222): prediction is the `quantile`-quantile of
`y` with intercept and `0` without; gradient
`X.T @ tilted_L1_grad(y - pred) / n_samples`. -/
def g0_quantile (X : Mat) (y : Arr) (fit_intercept : Bool) (quantile : ℚ) : Except Err Arr :=
  match y with
  | .vec yv =>
      let pred := if fit_intercept then npQuantile yv quantile else 0
      let r := (yv.map (fun a => a - pred)).map (tilted_L1_grad_1 quantile)
      .ok (.vec ((matVec (transpose X) r).map (fun a => a / (X.length : ℚ))))
  | .mat ym =>
      let pred := if fit_intercept then npQuantile ym.flatten quantile else 0
      let r := matMap (matMap ym (fun a => a - pred)) (tilted_L1_grad_1 quantile)
      .ok (.mat (matMap (matMul (transpose X) r) (fun a => a / (X.length : ℚ))))

/-- `grad_at_zero` (lines 103-133): string dispatch on the loss name.  The
source tests the string `"g0_poisson_mr"` (not `"poisson_mr"`) and routes it
to `g0_poisson`; every other name raises `NotImplementedError`. -/
def grad_at_zero (X : Mat) (y : Arr) (fit_intercept : Bool) (loss_func : String)
    (loss_kws : List (String × ℚ)) : Except Err Arr :=
  if loss_func = "lin_reg" then g0_lin_reg X y fit_intercept
  else if loss_func = "lin_reg_mr" then g0_lin_reg_mr X y fit_intercept
  else if loss_func = "huber_reg" then do
    let k ← reqOnlyKw loss_kws "knot"
    g0_huber_reg X y fit_intercept k
  else if loss_func = "huber_reg_mr" then do
    let k ← reqOnlyKw loss_kws "knot"
    g0_huber_reg_mr X y fit_intercept k
  else if loss_func = "log_reg" then g0_log_reg X y fit_intercept
  else if loss_func = "multinomial" then g0_multinomial X y fit_intercept
  else if loss_func = "poisson" then do
    let _ ← reqNoKw loss_kws
    g0_poisson X y fit_intercept
  else if loss_func = "g0_poisson_mr" then do
    let _ ← reqNoKw loss_kws
    g0_poisson X y fit_intercept
  else if loss_func = "quantile" then do
    let q ← reqOnlyKw loss_kws "quantile"
    g0_quantile X y fit_intercept q
  else .error (.unsupportedLoss loss_func)

/-- Modelled from the spec: `_MULTI_RESP_LOSSES` (`ya_glm.info`, not under
`src/`) lists the natively multi-response loss names: the `_mr` variants and
`multinomial`. -/
def MULTI_RESP_LOSSES : List String :=
  ["lin_reg_mr", "huber_reg_mr", "multinomial", "poisson_mr"]

/-- Column `c` of a weights matrix, `weights[:, c]`. -/
def colW (W : List (List Wt)) (c : ℕ) : List Wt := W.map (fun r => r.getD c .null)

/-- The single-response body of `lasso_max` (lines 32-41): the gradient at
zero, masked by the penalized entries and divided by their weights, then
`abs(...).max()`.  A 2-d weights array indexed against the 1-d gradient
raises (`IndexError`). -/
def lasso_max_single (X : Mat) (yv : Vec) (fit_intercept : Bool) (loss_func : String)
    (loss_kws : List (String × ℚ)) (weights : Option WArr) : Except Err ℚ := do
  let g ← grad_at_zero X (.vec yv) fit_intercept loss_func loss_kws
  let gv ← expectVec g
  match weights with
  | none => npMax (gv.map (fun q => |q|))
  | some (.wvec w) => npMax ((maskedDivide gv w).map (fun q => |q|))
  | some (.wmat _) => .error .indexError

/-- `lasso_max` (lines 12-41): on a multi-response `y` (a second axis),
recurse per response column with the matching weights column and take the
Python `max` of the per-response bounds; on a 1-d `y`, the single-response
body.  `weights[:, c]` on a 1-d weights array raises `IndexError`. -/
def lasso_max (X : Mat) (y : Arr) (fit_intercept : Bool) (loss_func : String)
    (loss_kws : List (String × ℚ)) (weights : Option WArr) : Except Err ℚ :=
  match y with
  | .vec yv => lasso_max_single X yv fit_intercept loss_func loss_kws weights
  | .mat ym => do
      let ms ← collectM (List.range (ncols ym)) (fun c =>
        match weights with
        | none => lasso_max_single X (colQ ym c) fit_intercept loss_func loss_kws none
        | some (.wmat W) =>
            lasso_max_single X (colQ ym c) fit_intercept loss_func loss_kws
              (some (.wvec (colW W c)))
        | some (.wvec _) => .error .indexError)
      npMax ms

/-- `get_L1toL2_max` (lines 44-58): asserts a natively multi-response loss,
computes per-row Euclidean norms of the feature × response gradient, masks
and divides by the weights, and takes the Python `max`.  The Euclidean norm
(`np.linalg.norm`, external numerics with irrational values) is a parameter
`nrm` of the model; no claim settled here depends on its values. -/
def get_L1toL2_max (nrm : Vec → ℚ) (X : Mat) (y : Arr) (fit_intercept : Bool)
    (loss_func : String) (loss_kws : List (String × ℚ)) (weights : Option (List Wt)) :
    Except Err ℚ := do
  let _ ← if loss_func ∈ MULTI_RESP_LOSSES then Except.ok () else Except.error Err.assertionError
  let g ← grad_at_zero X y fit_intercept loss_func loss_kws
  let gm ← expectMat g
  let row_norms := gm.map nrm
  match weights with
  | none => npMax row_norms
  | some w => npMax (maskedDivide row_norms w)

/-- Modelled from the spec: `process_weights_group_lasso`
(`ya_glm.processing`, not under `src/`) passes supplied weights through and
auto-derives one weight per group when none are supplied; the derivation
(external numerics) is the parameter `auto`. -/
def process_weights_group_lasso (auto : List (List ℕ) → List Wt)
    (groups : List (List ℕ)) (weights : Option (List Wt)) : List Wt :=
  match weights with
  | some w => w
  | none => auto groups

/-- `group_lasso_max` (lines 61-78): Euclidean norm of the gradient restricted
to each group (rows of a 2-d gradient are flattened, as in the Frobenius
default of `np.linalg.norm`), divided by the processed per-group weights over
the penalized mask, then `.max()`. -/
def group_lasso_max (auto : List (List ℕ) → List Wt) (nrm : Vec → ℚ) (X : Mat)
    (y : Arr) (groups : List (List ℕ)) (fit_intercept : Bool) (loss_func : String)
    (loss_kws : List (String × ℚ)) (weights : Option (List Wt)) : Except Err ℚ := do
  let g ← grad_at_zero X y fit_intercept loss_func loss_kws
  let group_norms :=
    match g with
    | .vec gv => groups.map (fun idxs => nrm (idxs.map (fun i => gv.getD i 0)))
    | .mat gm => groups.map (fun idxs => nrm (idxs.map (fun i => gm.getD i [])).flatten)
  let w := process_weights_group_lasso auto groups weights
  npMax (maskedDivide group_norms w)

/-- `nuclear_norm_max` (lines 81-100): asserts a natively multi-response
loss; the leading singular value of the gradient (`leading_sval`, external
numerics with irrational values, a parameter `sval` of the model) divided by
the smallest penalized weight (`weights[penalized_mask].min()`). -/
def nuclear_norm_max (sval : Mat → ℚ) (X : Mat) (y : Arr) (fit_intercept : Bool)
    (loss_func : String) (loss_kws : List (String × ℚ)) (weights : Option (List Wt)) :
    Except Err ℚ := do
  let _ ← if loss_func ∈ MULTI_RESP_LOSSES then Except.ok () else Except.error Err.assertionError
  let g ← grad_at_zero X y fit_intercept loss_func loss_kws
  let gm ← expectMat g
  let sval_max := sval gm
  match weights with
  | none => .ok sval_max
  | some w => do
      let smallest_weight ← npMin ((w.filter is_nonzero_weight).map wtVal)
      .ok (sval_max / smallest_weight)

/-- The spec's wording of a penalized weight entry: non-null, non-NaN, and
of absolute value greater than machine epsilon (to be compared with the
source's `is_nonzero_weight`). -/
def penalizedSpec (w : Wt) : Prop := w ≠ .null ∧ w ≠ .nan ∧ eps < |wtVal w|

instance (w : Wt) : Decidable (penalizedSpec w) := by
  unfold penalizedSpec; infer_instance

/-- A weight entry scaled by `c` (numpy scalar multiplication: a value is
multiplied, `NaN` stays `NaN`; a `None` entry cannot arise in a float
weights array and is kept unchanged). -/
def scaleWt (c : ℚ) (w : Wt) : Wt :=
  match w with
  | .val q => .val (c * q)
  | .nan => .nan
  | .null => .null

/-- A weights array scaled entrywise by `c`. -/
def scaleWArr (c : ℚ) (w : WArr) : WArr :=
  match w with
  | .wvec l => .wvec (l.map (scaleWt c))
  | .wmat W => .wmat (W.map (fun r => r.map (scaleWt c)))

/-- A predicate holding of every entry of a weights array. -/
def wtAll (p : Wt → Prop) (w : WArr) : Prop :=
  match w with
  | .wvec l => ∀ e ∈ l, p e
  | .wmat W => ∀ r ∈ W, ∀ e ∈ r, p e

/-- `np.sort(v)[::-1]`: the entries of `v` in non-increasing order. -/
def sortDesc (v : Vec) : Vec := (List.insertionSort (· ≤ ·) v).reverse

/-- The selection condition of `project_simplex` at 1-based index `k`:
`u_k - (cumsum_k - z) / k > 0` (`cond` in convex.py, line 89). -/
def psCond (u : Vec) (z : ℚ) (k : ℕ) : Bool :=
  decide (0 < u.getD (k - 1) 0 - ((u.take k).sum - z) / (k : ℚ))

/-- The threshold `theta = (cumsum_rho - z) / rho` of `project_simplex`
(line 91). -/
def psTheta (u : Vec) (z : ℚ) (k : ℕ) : ℚ := ((u.take k).sum - z) / (k : ℚ)

/-- `project_simplex` (convex.py, lines 83-93): sort descending, pick the
largest 1-based index `rho` whose condition holds (`ind[cond][-1]`; an
`IndexError` when no index qualifies), and clip `v` at the threshold.
`w = max(v - theta, 0)`. -/
def project_simplex (v : Vec) (z : ℚ) : Except Err Vec :=
  let u := sortDesc v
  match ((List.range' 1 v.length).filter (psCond u z)).getLast? with
  | none => .error .indexError
  | some rho => .ok (v.map (fun x => max (x - psTheta u z rho) 0))

/-- `np.sign`. -/
def npSign (x : ℚ) : ℚ := if 0 < x then 1 else if x < 0 then -1 else 0

/-- `project_l1_ball` (convex.py, lines 96-97):
`np.sign(v) * project_simplex(np.abs(v), z)`. -/
def project_l1_ball (v : Vec) (z : ℚ) : Except Err Vec := do
  let p ← project_simplex (v.map (fun q => |q|)) z
  .ok (List.zipWith (fun a b => npSign a * b) v p)

/-- Modelled from the spec: the structural flavor of a `PenaltyConfig`
(`yaglm.config.penalty_utils`, not under `src/`) is one of
`convex`, `non_convex`, `mixed`. -/
inductive FlavorKind where
  | convex : FlavorKind
  | nonConvex : FlavorKind
  | mixed : FlavorKind
deriving DecidableEq, Repr

/-- Modelled from the spec: a `PenaltyConfig` carries its structural flavor;
the remaining configuration (structure, weights, groups) does not affect the
applicability probe or the setup errors settled here. -/
structure PenaltyConfig where
  flavor : FlavorKind
deriving DecidableEq, Repr

/-- Modelled from the spec: `NoPenalty` (`yaglm.config.penalty`, not under
`src/`), the convex do-nothing penalty substituted for `None` in `setup`. -/
def NoPenalty : PenaltyConfig := ⟨FlavorKind.convex⟩

/-- Modelled from the spec: `get_flavor_kind` extracts the flavor of an
optional penalty config (`None` has no flavor). -/
def get_flavor_kind (penalty : Option PenaltyConfig) : Option FlavorKind :=
  penalty.map PenaltyConfig.flavor

/-- The loss configuration object passed to the solver backend; its content
is irrelevant to the applicability probe and the setup errors settled here
(the Cvxpy adapter hands it to external compilation helpers). -/
structure LossConfig where
deriving DecidableEq, Repr

/-- A constraint configuration object; content irrelevant here, as above. -/
structure ConstraintConfig where
deriving DecidableEq, Repr

/-- A cvxpy optimization variable: a mutable holder of an optional value. -/
structure CpVariable where
  value : Option Vec
deriving DecidableEq, Repr

/-- The solver state built by `Cvxpy.setup`: the multi-response flag, the
coefficient and (optional) intercept variables, and the stored penalty
config.  The compiled cvxpy problem itself is external and not modelled. -/
structure CvxpyState where
  is_mr_ : Bool
  coef_ : CpVariable
  intercept_ : Option CpVariable
  penalty_config_ : PenaltyConfig
deriving DecidableEq, Repr

/-- The solution record returned by `Cvxpy.solve`:
`{'coef': ..., 'intercept': ...}` (the intercept key only when the intercept
variable exists). -/
structure CvxpySoln where
  coef : Vec
  intercept : Option Vec
deriving DecidableEq, Repr

/-- Modelled from the spec: `clip_zero` (`yaglm.utils`, not under `src/`)
sets solution values smaller than `zero_tol` to exactly zero (per the
`Cvxpy` docstring). -/
def clip_zero (zero_tol : ℚ) (v : Vec) : Vec :=
  v.map (fun x => if |x| < zero_tol then 0 else x)

/-- `Cvxpy._is_applicable` (Cvxpy.py, lines 31-41): `False` (after a
warning, not an exception) when the optional `cvxpy` dependency is absent;
otherwise applicable exactly when the penalty's flavor kind is not
`non_convex` or `mixed`.  The availability of the external dependency is the
explicit argument `cvxpy_installed`. -/
def Cvxpy.is_applicable (cvxpy_installed : Bool) (_loss : LossConfig)
    (penalty : Option PenaltyConfig) (_constraint : Option ConstraintConfig) : Bool :=
  if cvxpy_installed then
    match get_flavor_kind penalty with
    | some .nonConvex => false
    | some .mixed => false
    | _ => true
  else false

/-- `Cvxpy.setup` (lines 43-94): first `import cvxpy as cp` (line 50, a
`ModuleNotFoundError` when the dependency is absent), then raise
`ValueError` ("CVXPY is not applicable ...", the spec's NotApplicable) when
`is_applicable` is false, then build the solver state: the intercept
variable exists iff `fit_intercept`.  The external cvxpy program
construction (`get_loss`, `get_penalty`, `get_constraints`, `cp.Problem`) is
not modelled beyond the stored state. -/
def Cvxpy.setup (cvxpy_installed : Bool) (_X : Mat) (y : Arr) (loss : LossConfig)
    (penalty : Option PenaltyConfig) (constraint : Option ConstraintConfig)
    (fit_intercept : Bool) (_sample_weight : Option Vec) : Except Err CvxpyState :=
  if cvxpy_installed then
    if Cvxpy.is_applicable cvxpy_installed loss penalty constraint then
      .ok { is_mr_ := match y with | .vec _ => false | .mat _ => true
            coef_ := ⟨none⟩
            intercept_ := if fit_intercept then some ⟨none⟩ else none
            penalty_config_ := penalty.getD NoPenalty }
    else .error .notApplicable
  else .error .missingDependency

/-- `Cvxpy.solve` (lines 108-133): assigns `self.coef_.value = coef_init`,
then `self.intercept_.value = intercept_init` — an `AttributeError` when the
intercept variable is `None` — then delegates to the external solver
(`self.problem_.solve(...)`, the parameter `ext_solve`, returning the solved
coefficient and intercept values and a status string), clips the
coefficient, and returns `(soln, None, info)`. -/
def Cvxpy.solve (zero_tol : ℚ) (ext_solve : Unit → Vec × Vec × String)
    (st : CvxpyState) (coef_init : Option Vec) (intercept_init : Option Vec) :
    Except Err (CvxpySoln × Option Unit × String) :=
  let st := { st with coef_ := ⟨coef_init⟩ }
  match st.intercept_ with
  | none => .error .attributeError
  | some _ =>
      let (coefv, intv, status) := ext_solve ()
      let _ := intercept_init
      .ok ({ coef := clip_zero zero_tol coefv, intercept := some intv }, none, status)

/-! ### Helper lemmas -/

theorem exbind_ok_iff {α β : Type} {e : Except Err α} {f : α → Except Err β} {b : β} :
    (e >>= f) = .ok b ↔ ∃ a, e = .ok a ∧ f a = .ok b := by
  cases e <;> simp [Bind.bind, Except.bind]

theorem npMax_ne_nil {l : List ℚ} {m : ℚ} (h : npMax l = .ok m) : l ≠ [] := by
  intro hl; subst hl; simp [npMax] at h

theorem foldl_max_eq_or_mem (xs : List ℚ) (x : ℚ) :
    xs.foldl max x = x ∨ xs.foldl max x ∈ xs := by
  induction xs generalizing x with
  | nil => exact Or.inl rfl
  | cons a t ih =>
    rcases ih (max x a) with h | h
    · rcases max_cases x a with ⟨he, _⟩ | ⟨he, _⟩
      · exact Or.inl (by simpa [he] using h)
      · exact Or.inr (by simp [List.foldl_cons, he] at h ⊢; simp [h])
    · exact Or.inr (by simp [List.foldl_cons]; exact Or.inr h)

theorem le_foldl_max (xs : List ℚ) (x : ℚ) :
    x ≤ xs.foldl max x ∧ ∀ y ∈ xs, y ≤ xs.foldl max x := by
  induction xs generalizing x with
  | nil => exact ⟨le_refl x, by simp⟩
  | cons a t ih =>
    obtain ⟨h1, h2⟩ := ih (max x a)
    refine ⟨le_trans (le_max_left x a) h1, ?_⟩
    intro y hy
    rcases List.mem_cons.mp hy with rfl | hy
    · exact le_trans (le_max_right x y) h1
    · exact h2 y hy

theorem npMax_ok_mem {l : List ℚ} {m : ℚ} (h : npMax l = .ok m) : m ∈ l := by
  cases l with
  | nil => simp [npMax] at h
  | cons x xs =>
    simp only [npMax, Except.ok.injEq] at h
    subst h
    rcases foldl_max_eq_or_mem xs x with h | h
    · simp [h]
    · simp [h]

theorem npMax_ok_le {l : List ℚ} {m : ℚ} (h : npMax l = .ok m) : ∀ x ∈ l, x ≤ m := by
  cases l with
  | nil => simp [npMax] at h
  | cons x xs =>
    simp only [npMax, Except.ok.injEq] at h
    subst h
    intro y hy
    rcases List.mem_cons.mp hy with rfl | hy
    · exact (le_foldl_max xs y).1
    · exact (le_foldl_max xs x).2 y hy

theorem npMax_ok_of_ne_nil {l : List ℚ} (h : l ≠ []) : ∃ m, npMax l = .ok m := by
  cases l with
  | nil => exact absurd rfl h
  | cons x xs => exact ⟨xs.foldl max x, rfl⟩

theorem foldl_max_div (xs : List ℚ) (x c : ℚ) (hc : 0 < c) :
    (xs.map (fun a => a / c)).foldl max (x / c) = (xs.foldl max x) / c := by
  induction xs generalizing x with
  | nil => rfl
  | cons a t ih =>
    have hmax : max (x / c) (a / c) = max x a / c := by
      rcases le_total x a with h | h
      · rw [max_eq_right h, max_eq_right ((div_le_div_iff_of_pos_right hc).mpr h)]
      · rw [max_eq_left h, max_eq_left ((div_le_div_iff_of_pos_right hc).mpr h)]
    simp only [List.map_cons, List.foldl_cons, hmax]
    exact ih (max x a)

theorem npMax_map_div {l : List ℚ} {m c : ℚ} (hc : 0 < c) (h : npMax l = .ok m) :
    npMax (l.map (fun x => x / c)) = .ok (m / c) := by
  cases l with
  | nil => simp [npMax] at h
  | cons x xs =>
    simp only [npMax, Except.ok.injEq] at h
    subst h
    simp only [List.map_cons, npMax, Except.ok.injEq]
    exact foldl_max_div xs x c hc

theorem collectM_ok_iff {α β : Type} {l : List α} {f : α → Except Err β} {ms : List β} :
    collectM l f = .ok ms ↔ List.Forall₂ (fun a b => f a = .ok b) l ms := by
  induction l generalizing ms with
  | nil =>
    cases ms <;> simp [collectM]
  | cons a t ih =>
    simp only [collectM, exbind_ok_iff]
    constructor
    · rintro ⟨y, hy, ys, hys, hcons⟩
      cases hcons
      exact List.Forall₂.cons hy (ih.mp hys)
    · intro h
      cases h with
      | cons hy ht => exact ⟨_, hy, _, ih.mpr ht, rfl⟩

theorem maskedDivide_eq_nil {g : Vec} {w : List Wt}
    (h : ∀ e ∈ w, is_nonzero_weight e = false) : maskedDivide g w = [] := by
  unfold maskedDivide
  rw [List.filterMap_eq_nil_iff]
  intro p hp
  have := (List.of_mem_zip hp).2
  simp [h p.2 this]

theorem lasso_max_vec (X : Mat) (v : Vec) (fi : Bool) (loss : String)
    (kws : List (String × ℚ)) (w : Option WArr) :
    lasso_max X (.vec v) fi loss kws w = lasso_max_single X v fi loss kws w := rfl

/-! ### Claim theorems -/

/-- C1: a weight entry is treated as penalized iff it is non-null, non-NaN
and of absolute value above machine epsilon, and non-penalized coordinates
are excluded from the bound: for gradient `[5, 100, 3]` (obtained from
`lin_reg` with `X = [[5, 100, 3]]`, `y = [1]`) and weights `[1, 0, 1]`,
`lasso_max` returns `5` even though index 1 carries the largest gradient
magnitude. -/
theorem claim_C1_pen_mask_and_example :
    (∀ w : Wt, is_nonzero_weight w = true ↔ penalizedSpec w) ∧
    (∀ ws : List Wt, get_is_pen_mask ws = ws.map (fun w => decide (penalizedSpec w))) ∧
    grad_at_zero [[5, 100, 3]] (.vec [1]) false "lin_reg" [] = .ok (.vec [5, 100, 3]) ∧
    lasso_max [[5, 100, 3]] (.vec [1]) false "lin_reg" []
      (some (.wvec [.val 1, .val 0, .val 1])) = .ok 5 := by
  have hiff : ∀ w : Wt, is_nonzero_weight w = true ↔ penalizedSpec w := by
    intro w
    cases w <;> simp [is_nonzero_weight, penalizedSpec, wtVal, eps]
  refine ⟨hiff, ?_, ?_, ?_⟩
  case refine_2 =>
    norm_num [grad_at_zero, g0_lin_reg, transpose, ncols, colQ, matVec, dot,
      List.range_succ, Function.comp]
  case refine_3 =>
    simp only [lasso_max, lasso_max_single, grad_at_zero, g0_lin_reg, expectVec,
      Bind.bind, Except.bind]
    norm_num [transpose, ncols, colQ, matVec, dot, List.range_succ, Function.comp]
    norm_num [maskedDivide, List.filterMap_cons, is_nonzero_weight, wtVal, eps, npMax,
      abs_of_pos, abs_of_nonneg]
  intro ws
  unfold get_is_pen_mask
  apply List.map_congr_left
  intro w _
  rcases h : is_nonzero_weight w with _ | _
  · symm; simp only [decide_eq_false_iff_not]
    intro hp
    rw [(hiff w).mpr hp] at h
    exact Bool.false_ne_true h.symm
  · symm; simpa using (hiff w).mp h

/-- C4: the loss name `poisson_mr` is NOT recognized by `grad_at_zero`: the
dispatch raises `NotImplementedError` on it, because the source tests the
misspelled string `"g0_poisson_mr"` instead — and even that branch computes
`g0_poisson`, not the column-stacking `g0_poisson_mr`. -/
theorem claim_C4_poisson_mr_dispatch :
    grad_at_zero [[1]] (.vec [1]) false "poisson_mr" []
      = .error (.unsupportedLoss "poisson_mr") ∧
    grad_at_zero [[1]] (.vec [1]) false "g0_poisson_mr" [] = .ok (.vec [0]) := by
  constructor
  · simp [grad_at_zero]
  · simp only [grad_at_zero, reqNoKw, g0_poisson, Bind.bind, Except.bind]
    norm_num [transpose, ncols, colQ, matVec, dot, List.range_succ, Function.comp]
    simp

/-- C7: `project_l1_ball` is not the Euclidean projection onto the L1 ball:
the input `[1/5]` already satisfies `‖v‖₁ = 1/5 ≤ 1`, so the closest feasible
point is `[1/5]` itself, yet the code returns `[1]` (it always projects the
absolute values onto the simplex, pushing interior points to the sphere). -/
theorem claim_C7_l1ball_not_projection :
    project_l1_ball [(1 : ℚ)/5] 1 = .ok [1] ∧
    |(1 : ℚ)/5| ≤ 1 ∧
    ((1 : ℚ)/5) ≠ 1 := by
  refine ⟨?_, by rw [abs_le]; constructor <;> norm_num, by norm_num⟩
  simp only [project_l1_ball, project_simplex, sortDesc, Bind.bind, Except.bind]
  norm_num [List.insertionSort, List.orderedInsert, psCond, psTheta, npSign,
    List.range', List.filter_cons, List.filter_nil, eps, List.getLast?,
    abs_of_pos, abs_of_nonneg]

/-- C8 (amended): `is_applicable` is false, without raising, when the
`cvxpy` dependency is absent or the penalty flavor is non-convex or mixed;
and whenever it is false, `setup` raises before any solve attempt —
NotApplicable when the dependency is present, and the missing-module error
of `import cvxpy` (not NotApplicable) when it is absent. -/
theorem claim_C8_applicable_gates_setup (installed : Bool) (loss : LossConfig)
    (penalty : Option PenaltyConfig) (constraint : Option ConstraintConfig)
    (X : Mat) (y : Arr) (fi : Bool) (sw : Option Vec) :
    (installed = false → Cvxpy.is_applicable installed loss penalty constraint = false) ∧
    ((get_flavor_kind penalty = some .nonConvex ∨ get_flavor_kind penalty = some .mixed) →
      Cvxpy.is_applicable installed loss penalty constraint = false) ∧
    (Cvxpy.is_applicable installed loss penalty constraint = false →
      Cvxpy.setup installed X y loss penalty constraint fi sw =
        .error (if installed then Err.notApplicable else Err.missingDependency)) := by
  refine ⟨?_, ?_, ?_⟩
  · rintro rfl; rfl
  · intro h
    cases installed
    · rfl
    · rcases h with h | h <;> simp [Cvxpy.is_applicable, h]
  · intro h
    cases installed
    · rfl
    · simp only [Cvxpy.setup, h]
      rfl

/-- C8 witness: a concrete non-convex penalty with the dependency present:
`is_applicable` is false and `setup` raises NotApplicable. -/
theorem claim_C8_witness :
    Cvxpy.is_applicable true ⟨⟩ (some ⟨.nonConvex⟩) none = false ∧
    Cvxpy.setup true [[1]] (.vec [1]) ⟨⟩ (some ⟨.nonConvex⟩) none true none
      = .error .notApplicable := by
  have h := claim_C8_applicable_gates_setup true ⟨⟩ (some ⟨.nonConvex⟩) none
    [[1]] (.vec [1]) true none
  have h1 := h.2.1 (Or.inl rfl)
  exact ⟨h1, by simpa using h.2.2 h1⟩

/-- C8 counterexample to the claim as stated: with the dependency absent and
a convex penalty, `is_applicable` is false, yet `setup` raises the
missing-module error, not NotApplicable. -/
theorem claim_C8_counterexample :
    Cvxpy.is_applicable false ⟨⟩ (some ⟨.convex⟩) none = false ∧
    Cvxpy.setup false [[1]] (.vec [1]) ⟨⟩ (some ⟨.convex⟩) none true none
      = .error .missingDependency ∧
    Err.missingDependency ≠ Err.notApplicable := by
  refine ⟨rfl, rfl, by decide⟩

/-- C9: a solver set up with `fit_intercept = False` stores no intercept
variable, and every subsequent `solve` raises while assigning the intercept
initialization — regardless of the external solver — so `solve` can return a
solution only when the solver was set up with `fit_intercept = True`. -/
theorem claim_C9_solve_needs_intercept (installed : Bool) (X : Mat) (y : Arr)
    (loss : LossConfig) (penalty : Option PenaltyConfig)
    (constraint : Option ConstraintConfig) (fi : Bool) (sw : Option Vec)
    (st : CvxpyState)
    (hsetup : Cvxpy.setup installed X y loss penalty constraint fi sw = .ok st) :
    (fi = false → ∀ zt ext ci ii, Cvxpy.solve zt ext st ci ii = .error .attributeError) ∧
    (∀ zt ext ci ii r, Cvxpy.solve zt ext st ci ii = .ok r → fi = true) := by
  have hint : st.intercept_ = if fi then some ⟨none⟩ else none := by
    cases installed
    · simp [Cvxpy.setup] at hsetup
    · by_cases happ : Cvxpy.is_applicable true loss penalty constraint
      · simp only [Cvxpy.setup, happ, if_true, Except.ok.injEq] at hsetup
        rw [← hsetup]
      · simp [Cvxpy.setup, happ] at hsetup
  constructor
  · rintro rfl zt ext ci ii
    simp only [Bool.false_eq_true, if_false] at hint
    simp [Cvxpy.solve, hint]
  · intro zt ext ci ii r hok
    cases fi
    · simp only [Bool.false_eq_true, if_false] at hint
      simp [Cvxpy.solve, hint] at hok
    · rfl

/-- C9 witness: the concrete no-intercept setup state makes `solve` raise. -/
theorem claim_C9_witness :
    Cvxpy.solve 0 (fun _ => ([], [], "optimal"))
      ⟨false, ⟨none⟩, none, NoPenalty⟩ none none = .error .attributeError :=
  (claim_C9_solve_needs_intercept true [[1]] (.vec [1]) ⟨⟩ none none false none
    ⟨false, ⟨none⟩, none, NoPenalty⟩ rfl).1 rfl 0 _ none none

theorem collectM_range_ok {n : ℕ} {f : ℕ → Except Err ℚ} {ms : List ℚ}
    (h : collectM (List.range n) f = .ok ms) :
    ms.length = n ∧ ∀ c, c < n → f c = .ok (ms.getD c 0) := by
  have h2 := collectM_ok_iff.mp h
  obtain ⟨hl, hp⟩ := List.forall₂_iff_get.mp h2
  simp only [List.length_range] at hl
  refine ⟨hl.symm, ?_⟩
  intro c hc
  have h1 : c < (List.range n).length := by simpa using hc
  have h2' : c < ms.length := by omega
  have hpt := hp c h1 h2'
  rw [List.get_range] at hpt
  rw [List.getD_eq_getElem _ _ h2']
  simpa using hpt

/-- C3: every one of the four bound computations, called with a weights
vector in which no coordinate is penalized, raises (the empty-selection
`ValueError`, the spec's NumericalDegeneracy) rather than returning a
value — stated for any inputs on which the gradient computation itself
succeeds and (where asserted) the loss is natively multi-response. -/
theorem claim_C3_degenerate_weights
    (w : List Wt)
    (X₁ : Mat) (y₁ : Vec) (fi₁ : Bool) (loss₁ : String) (kws₁ : List (String × ℚ)) (g₁ : Vec)
    (X₂ : Mat) (y₂ : Mat) (fi₂ : Bool) (loss₂ : String) (kws₂ : List (String × ℚ)) (g₂ : Mat)
    (X₃ : Mat) (y₃ : Arr) (fi₃ : Bool) (loss₃ : String) (kws₃ : List (String × ℚ)) (g₃ : Arr)
    (X₄ : Mat) (y₄ : Mat) (fi₄ : Bool) (loss₄ : String) (kws₄ : List (String × ℚ)) (g₄ : Mat)
    (groups : List (List ℕ)) (auto : List (List ℕ) → List Wt)
    (nrm : Vec → ℚ) (sval : Mat → ℚ)
    (hw : ∀ e ∈ w, is_nonzero_weight e = false)
    (h₁ : grad_at_zero X₁ (.vec y₁) fi₁ loss₁ kws₁ = .ok (.vec g₁))
    (hm₂ : loss₂ ∈ MULTI_RESP_LOSSES)
    (h₂ : grad_at_zero X₂ (.mat y₂) fi₂ loss₂ kws₂ = .ok (.mat g₂))
    (h₃ : grad_at_zero X₃ y₃ fi₃ loss₃ kws₃ = .ok g₃)
    (hm₄ : loss₄ ∈ MULTI_RESP_LOSSES)
    (h₄ : grad_at_zero X₄ (.mat y₄) fi₄ loss₄ kws₄ = .ok (.mat g₄)) :
    lasso_max X₁ (.vec y₁) fi₁ loss₁ kws₁ (some (.wvec w)) = .error .numericalDegeneracy ∧
    get_L1toL2_max nrm X₂ (.mat y₂) fi₂ loss₂ kws₂ (some w) = .error .numericalDegeneracy ∧
    group_lasso_max auto nrm X₃ y₃ groups fi₃ loss₃ kws₃ (some w)
      = .error .numericalDegeneracy ∧
    nuclear_norm_max sval X₄ (.mat y₄) fi₄ loss₄ kws₄ (some w)
      = .error .numericalDegeneracy := by
  have hfilter : w.filter is_nonzero_weight = [] := by
    rw [List.filter_eq_nil]
    intro a ha
    simp [hw a ha]
  refine ⟨?_, ?_, ?_, ?_⟩
  · rw [lasso_max_vec]
    simp only [lasso_max_single, h₁, Bind.bind, Except.bind, expectVec]
    rw [maskedDivide_eq_nil hw]
    rfl
  · simp only [get_L1toL2_max, hm₂, if_pos, Bind.bind, Except.bind, h₂, expectMat]
    rw [maskedDivide_eq_nil hw]
    rfl
  · simp only [group_lasso_max, h₃, Bind.bind, Except.bind, process_weights_group_lasso]
    rw [maskedDivide_eq_nil hw]
    rfl
  · simp only [nuclear_norm_max, hm₄, if_pos, Bind.bind, Except.bind, h₄, expectMat]
    rw [hfilter]
    rfl

/-- C3 witness: a concrete degenerate weights vector `[0]` (zero is not
penalized) makes all four bounds raise. -/
theorem claim_C3_witness :
    lasso_max [[1]] (.vec [1]) false "lin_reg" [] (some (.wvec [.val 0]))
      = .error .numericalDegeneracy ∧
    get_L1toL2_max (fun _ => 0) [[1]] (.mat [[1]]) false "lin_reg_mr" [] (some [.val 0])
      = .error .numericalDegeneracy ∧
    group_lasso_max (fun _ => []) (fun _ => 0) [[1]] (.vec [1]) [[0]] false "lin_reg" []
      (some [.val 0]) = .error .numericalDegeneracy ∧
    nuclear_norm_max (fun _ => 0) [[1]] (.mat [[1]]) false "lin_reg_mr" [] (some [.val 0])
      = .error .numericalDegeneracy := by
  have hg1 : grad_at_zero [[1]] (.vec [1]) false "lin_reg" [] = .ok (.vec [1]) := by
    norm_num [grad_at_zero, g0_lin_reg, transpose, ncols, colQ, matVec, dot,
      List.range_succ, Function.comp]
  have hg2 : grad_at_zero [[1]] (.mat [[1]]) false "lin_reg_mr" [] = .ok (.mat [[1]]) := by
    simp [grad_at_zero]
    norm_num [g0_lin_reg_mr, matMul, matMap, transpose, ncols, colQ, dot,
      List.range_succ, Function.comp]
  have hw : ∀ e ∈ [Wt.val 0], is_nonzero_weight e = false := by
    intro e he
    simp only [List.mem_singleton] at he
    subst he
    simp [is_nonzero_weight, eps]
  exact claim_C3_degenerate_weights [Wt.val 0]
    [[1]] [1] false "lin_reg" [] [1]
    [[1]] [[1]] false "lin_reg_mr" [] [[1]]
    [[1]] (.vec [1]) false "lin_reg" [] (.vec [1])
    [[1]] [[1]] false "lin_reg_mr" [] [[1]]
    [[0]] (fun _ => []) (fun _ => 0) (fun _ => 0)
    hw hg1 (by simp [MULTI_RESP_LOSSES]) hg2 hg1 (by simp [MULTI_RESP_LOSSES]) hg2

/-- C2: on a multi-response `y` (with a second axis) and a loss that is not
natively multi-response, `lasso_max` decomposes per response: whenever it
returns a bound `m`, there are per-column bounds `ms` — each equal to
`lasso_max` on `X`, the column `y[:, c]` and the `c`-th weights column — of
which `m` is the maximum. -/
theorem claim_C2_multiresponse_decomposition
    (X : Mat) (ym : Mat) (fi : Bool) (loss : String) (kws : List (String × ℚ))
    (W : List (List Wt)) (m : ℚ)
    (hml : loss ∉ MULTI_RESP_LOSSES)
    (hc : 0 < ncols ym)
    (h : lasso_max X (.mat ym) fi loss kws (some (.wmat W)) = .ok m) :
    ∃ ms : List ℚ, ms.length = ncols ym ∧
      (∀ c, c < ncols ym →
        lasso_max X (.vec (colQ ym c)) fi loss kws (some (.wvec (colW W c)))
          = .ok (ms.getD c 0)) ∧
      m ∈ ms ∧ (∀ x ∈ ms, x ≤ m) := by
  simp only [lasso_max] at h
  rw [exbind_ok_iff] at h
  obtain ⟨ms, hcoll, hmax⟩ := h
  obtain ⟨hlen, hpt⟩ := collectM_range_ok hcoll
  exact ⟨ms, hlen, fun c hcc => hpt c hcc, npMax_ok_mem hmax, npMax_ok_le hmax⟩

/-- C2 witness: a concrete two-response instance; the two per-column bounds
are `1` and `7/2` and the multi-response bound is their maximum `7/2`. -/
theorem claim_C2_witness :
    ∃ ms : List ℚ, ms.length = ncols [[(1 : ℚ), 2], [0, 1]] ∧
      (∀ c, c < ncols [[(1 : ℚ), 2], [0, 1]] →
        lasso_max [[2], [3]] (.vec (colQ [[(1 : ℚ), 2], [0, 1]] c)) false "lin_reg" []
          (some (.wvec (colW [[.val 1, .val 1]] c))) = .ok (ms.getD c 0)) ∧
      (7 : ℚ)/2 ∈ ms ∧ (∀ x ∈ ms, x ≤ (7 : ℚ)/2) := by
  apply claim_C2_multiresponse_decomposition [[2], [3]] [[(1 : ℚ), 2], [0, 1]] false
    "lin_reg" [] [[.val 1, .val 1]] ((7 : ℚ)/2)
  · simp [MULTI_RESP_LOSSES]
  · norm_num [ncols]
  · simp only [lasso_max, lasso_max_single, collectM, grad_at_zero, expectVec,
      Bind.bind, Except.bind]
    norm_num [ncols, List.range_succ, g0_lin_reg, transpose, colQ, matVec, dot,
      Function.comp]
    norm_num [maskedDivide, colW, List.filterMap_cons, is_nonzero_weight, wtVal, eps,
      npMax, abs_of_pos, abs_of_nonneg]

theorem getD_map_scaleWt (c : ℚ) (r : List Wt) (i : ℕ) :
    (r.map (scaleWt c)).getD i .null = scaleWt c (r.getD i .null) := by
  induction r generalizing i with
  | nil => simp [scaleWt]
  | cons a t ih =>
    cases i with
    | zero => simp
    | succ n => simpa using ih n

theorem maskedDivide_scale {g : Vec} {w : List Wt} {c : ℚ}
    (hpres : ∀ e ∈ w, is_nonzero_weight (scaleWt c e) = is_nonzero_weight e) :
    maskedDivide g (w.map (scaleWt c)) = (maskedDivide g w).map (fun x => x / c) := by
  unfold maskedDivide
  rw [List.zip_map_right, List.filterMap_map, List.map_filterMap]
  apply List.filterMap_congr
  intro p hp
  obtain ⟨a, b⟩ := p
  have hw := (List.of_mem_zip hp).2
  have hps := hpres b hw
  simp only [Function.comp, Prod.map, id_eq]
  by_cases hnz : is_nonzero_weight b = true
  · have hs : is_nonzero_weight (scaleWt c b) = true := by rw [hps, hnz]
    rw [if_pos hs, if_pos hnz]
    cases b with
    | null => simp [is_nonzero_weight] at hnz
    | nan => simp [is_nonzero_weight] at hnz
    | val q =>
      simp only [scaleWt, wtVal, Option.map_some']
      rw [div_div, mul_comm]
  · have hnzf : is_nonzero_weight b = false := by simpa using hnz
    have hs : is_nonzero_weight (scaleWt c b) = false := by rw [hps, hnzf]
    rw [if_neg (by simp [hs]), if_neg (by simp [hnzf])]
    rfl

theorem lasso_max_single_wvec_eq (X : Mat) (yv : Vec) (fi : Bool) (loss : String)
    (kws : List (String × ℚ)) (w : List Wt) :
    lasso_max_single X yv fi loss kws (some (.wvec w)) =
      (grad_at_zero X (.vec yv) fi loss kws) >>= fun g =>
      (expectVec g) >>= fun gv =>
      npMax ((maskedDivide gv w).map (fun q => |q|)) := rfl

theorem lasso_max_single_wmat_eq (X : Mat) (yv : Vec) (fi : Bool) (loss : String)
    (kws : List (String × ℚ)) (W : List (List Wt)) :
    lasso_max_single X yv fi loss kws (some (.wmat W)) =
      (grad_at_zero X (.vec yv) fi loss kws) >>= fun g =>
      (expectVec g) >>= fun _ => .error .indexError := rfl

theorem lasso_single_wvec_ok_iff {X : Mat} {yv : Vec} {fi : Bool} {loss : String}
    {kws : List (String × ℚ)} {w : List Wt} {m : ℚ} :
    lasso_max_single X yv fi loss kws (some (.wvec w)) = .ok m ↔
      ∃ gv, grad_at_zero X (.vec yv) fi loss kws = .ok (.vec gv) ∧
        npMax ((maskedDivide gv w).map (fun q => |q|)) = .ok m := by
  rw [lasso_max_single_wvec_eq, exbind_ok_iff]
  constructor
  · rintro ⟨g, hg, h⟩
    rw [exbind_ok_iff] at h
    obtain ⟨gv, hgv, h⟩ := h
    cases g with
    | vec v =>
      simp only [expectVec, Except.ok.injEq] at hgv
      subst hgv
      exact ⟨v, hg, h⟩
    | mat mm => simp [expectVec] at hgv
  · rintro ⟨gv, hg, h⟩
    refine ⟨.vec gv, hg, ?_⟩
    rw [exbind_ok_iff]
    exact ⟨gv, rfl, h⟩

theorem lasso_single_scale {X : Mat} {yv : Vec} {fi : Bool} {loss : String}
    {kws : List (String × ℚ)} {w : List Wt} {c m : ℚ}
    (hc : 0 < c)
    (hpres : ∀ e ∈ w, is_nonzero_weight (scaleWt c e) = is_nonzero_weight e)
    (h : lasso_max_single X yv fi loss kws (some (.wvec w)) = .ok m) :
    lasso_max_single X yv fi loss kws (some (.wvec (w.map (scaleWt c)))) = .ok (m / c) := by
  rw [lasso_single_wvec_ok_iff] at h ⊢
  obtain ⟨gv, hg, h⟩ := h
  refine ⟨gv, hg, ?_⟩
  rw [maskedDivide_scale hpres]
  have habs : ((maskedDivide gv w).map (fun x => x / c)).map (fun q => |q|)
      = ((maskedDivide gv w).map (fun q => |q|)).map (fun x => x / c) := by
    simp only [List.map_map]
    apply List.map_congr_left
    intro x _
    simp [Function.comp, abs_div, abs_of_pos hc]
  rw [habs]
  exact npMax_map_div hc h

theorem mem_colW_cases {W : List (List Wt)} {a : ℕ} {e : Wt} (he : e ∈ colW W a) :
    (∃ r ∈ W, e ∈ r) ∨ e = .null := by
  unfold colW at he
  obtain ⟨r, hr, hre⟩ := List.mem_map.mp he
  by_cases hlt : a < r.length
  · left
    refine ⟨r, hr, ?_⟩
    rw [← hre, List.getD_eq_getElem _ _ hlt]
    exact List.getElem_mem hlt
  · right
    rw [← hre]
    exact List.getD_eq_default _ _ (le_of_not_lt hlt)

/-- C5 (amended): whenever `lasso_max` returns a bound and the positive
rescaling `c` preserves every coordinate's penalized status, rescaling the
weights by `c` divides the bound by `c`. -/
theorem claim_C5_weight_scaling
    (X : Mat) (y : Arr) (fi : Bool) (loss : String) (kws : List (String × ℚ))
    (w : WArr) (c m : ℚ)
    (hc : 0 < c)
    (hpres : wtAll (fun e => is_nonzero_weight (scaleWt c e) = is_nonzero_weight e) w)
    (h : lasso_max X y fi loss kws (some w) = .ok m) :
    lasso_max X y fi loss kws (some (scaleWArr c w)) = .ok (m / c) := by
  cases y with
  | vec yv =>
    cases w with
    | wvec l =>
      rw [lasso_max_vec] at h ⊢
      exact lasso_single_scale hc hpres h
    | wmat W =>
      exfalso
      rw [lasso_max_vec, lasso_max_single_wmat_eq, exbind_ok_iff] at h
      obtain ⟨g, hg, h⟩ := h
      rw [exbind_ok_iff] at h
      obtain ⟨gv, hgv, h⟩ := h
      simp at h
  | mat ym =>
    cases w with
    | wvec l =>
      exfalso
      simp only [lasso_max] at h
      rw [exbind_ok_iff] at h
      obtain ⟨ms, hcoll, hmax⟩ := h
      cases hn : ncols ym with
      | zero =>
        rw [hn] at hcoll
        simp only [List.range_zero, collectM, Except.ok.injEq] at hcoll
        subst hcoll
        simp [npMax] at hmax
      | succ k =>
        rw [hn, List.range_succ_eq_map] at hcoll
        simp [collectM, Bind.bind, Except.bind] at hcoll
    | wmat W =>
      simp only [lasso_max, scaleWArr] at h ⊢
      rw [exbind_ok_iff] at h
      obtain ⟨ms, hcoll, hmax⟩ := h
      rw [exbind_ok_iff]
      refine ⟨ms.map (fun x => x / c), ?_, npMax_map_div hc hmax⟩
      rw [collectM_ok_iff] at hcoll ⊢
      rw [List.forall₂_map_right_iff]
      apply hcoll.imp
      intro a b hab
      have hcol : colW (W.map (fun r => r.map (scaleWt c))) a = (colW W a).map (scaleWt c) := by
        unfold colW
        rw [List.map_map, List.map_map]
        apply List.map_congr_left
        intro r _
        simp only [Function.comp]
        exact getD_map_scaleWt c r a
      rw [hcol]
      apply lasso_single_scale hc ?_ hab
      intro e he
      rcases mem_colW_cases he with ⟨r, hr, hre⟩ | rfl
      · exact hpres r hr e hre
      · rfl

/-- C5 counterexample to the claim as stated: gradient `[1, 1]`, weights
`[1, 2^-51]`, scaling `c = 1/2 > 0`: one penalized coordinate survives, so
the scaled bound is `2`, not `2^51 / (1/2) = 2^52`. -/
theorem claim_C5_counterexample :
    (0 : ℚ) < 1/2 ∧
    lasso_max [[1, 1]] (.vec [1]) false "lin_reg" []
      (some (.wvec [.val 1, .val (1/2^51)])) = .ok (2^51) ∧
    lasso_max [[1, 1]] (.vec [1]) false "lin_reg" []
      (some (scaleWArr (1/2) (.wvec [.val 1, .val (1/2^51)]))) = .ok 2 ∧
    (2 : ℚ) ≠ 2^51 / (1/2) := by
  refine ⟨by norm_num, ?_, ?_, by norm_num⟩
  · simp only [lasso_max, lasso_max_single, grad_at_zero, g0_lin_reg, expectVec,
      Bind.bind, Except.bind]
    norm_num [transpose, ncols, colQ, matVec, dot, List.range_succ, Function.comp]
    norm_num [maskedDivide, List.filterMap_cons, is_nonzero_weight, wtVal, eps, npMax,
      abs_of_pos, abs_of_nonneg]
  · simp only [lasso_max, lasso_max_single, grad_at_zero, g0_lin_reg, expectVec,
      Bind.bind, Except.bind, scaleWArr, scaleWt, List.map_cons, List.map_nil]
    norm_num [transpose, ncols, colQ, matVec, dot, List.range_succ, Function.comp]
    norm_num [maskedDivide, List.filterMap_cons, is_nonzero_weight, wtVal, eps, npMax,
      abs_of_pos, abs_of_nonneg]

/-- C5 witness: gradient `[1]`, weights `[1]`, `c = 2`: the bound `1`
becomes `1/2`. -/
theorem claim_C5_witness :
    lasso_max [[1]] (.vec [1]) false "lin_reg" []
      (some (scaleWArr 2 (.wvec [.val 1]))) = .ok (1 / 2) := by
  apply claim_C5_weight_scaling [[1]] (.vec [1]) false "lin_reg" [] (.wvec [.val 1]) 2 1
    (by norm_num)
  · intro e he
    simp only [List.mem_singleton] at he
    subst he
    norm_num [is_nonzero_weight, scaleWt, eps, abs_of_pos]
  · simp only [lasso_max, lasso_max_single, grad_at_zero, g0_lin_reg, expectVec,
      Bind.bind, Except.bind]
    norm_num [transpose, ncols, colQ, matVec, dot, List.range_succ, Function.comp]
    norm_num [maskedDivide, List.filterMap_cons, is_nonzero_weight, wtVal, eps, npMax,
      abs_of_pos, abs_of_nonneg]

theorem sortDesc_perm (v : Vec) : (sortDesc v).Perm v :=
  (List.reverse_perm _).trans (List.perm_insertionSort _ v)

theorem sortDesc_length (v : Vec) : (sortDesc v).length = v.length :=
  (sortDesc_perm v).length_eq

theorem sortDesc_pairwise (v : Vec) : (sortDesc v).Pairwise (fun a b : ℚ => b ≤ a) := by
  unfold sortDesc
  rw [List.pairwise_reverse]
  exact List.sorted_insertionSort _ v

theorem pairwise_ge_getD_mono {u : Vec} (hp : u.Pairwise (fun a b : ℚ => b ≤ a))
    {i j : ℕ} (hij : i ≤ j) (hj : j < u.length) : u.getD j 0 ≤ u.getD i 0 := by
  rcases eq_or_lt_of_le hij with rfl | hlt
  · exact le_refl _
  · rw [List.pairwise_iff_get] at hp
    have hi : i < u.length := lt_trans hlt hj
    have := hp ⟨i, hi⟩ ⟨j, hj⟩ hlt
    rw [List.getD_eq_getElem _ _ hj, List.getD_eq_getElem _ _ hi]
    simpa [List.get_eq_getElem] using this

theorem getLast?_mem_of {l : List ℕ} {k : ℕ} (h : l.getLast? = some k) : k ∈ l := by
  rw [List.getLast?_eq_some_iff] at h
  obtain ⟨ys, rfl⟩ := h
  simp

theorem le_of_pairwise_lt_getLast {l : List ℕ} (hp : l.Pairwise (· < ·)) {k : ℕ}
    (h : l.getLast? = some k) : ∀ j ∈ l, j ≤ k := by
  rw [List.getLast?_eq_some_iff] at h
  obtain ⟨ys, rfl⟩ := h
  intro j hj
  rcases List.mem_append.mp hj with hj | hj
  · exact le_of_lt ((List.pairwise_append.mp hp).2.2 j hj k (by simp))
  · simp only [List.mem_singleton] at hj
    omega

theorem range'_pairwise_lt (s n : ℕ) : (List.range' s n).Pairwise (· < ·) := by
  rw [List.range'_eq_map_range, List.pairwise_map]
  exact (List.pairwise_lt_range n).imp (fun h => by omega)

theorem filter_range'_pairwise_lt {n : ℕ} (p : ℕ → Bool) :
    ((List.range' 1 n).filter p).Pairwise (· < ·) :=
  (range'_pairwise_lt 1 n).sublist (List.filter_sublist _)

theorem getLast_filter_range'_spec {n k : ℕ} {p : ℕ → Bool}
    (h : ((List.range' 1 n).filter p).getLast? = some k) :
    k ∈ List.range' 1 n ∧ p k = true ∧ ∀ j ∈ List.range' 1 n, p j = true → j ≤ k := by
  have hmem := getLast?_mem_of h
  have h1 := List.mem_filter.mp hmem
  refine ⟨h1.1, h1.2, ?_⟩
  intro j hj hpj
  exact le_of_pairwise_lt_getLast (filter_range'_pairwise_lt p) h j
    (List.mem_filter.mpr ⟨hj, hpj⟩)

theorem getLast_filter_range'_eq {n k : ℕ} {p : ℕ → Bool}
    (hk : k ∈ List.range' 1 n) (hpk : p k = true)
    (hmax : ∀ j ∈ List.range' 1 n, p j = true → j ≤ k) :
    ((List.range' 1 n).filter p).getLast? = some k := by
  have hkf : k ∈ (List.range' 1 n).filter p := List.mem_filter.mpr ⟨hk, hpk⟩
  have hne : (List.range' 1 n).filter p ≠ [] := by
    intro h0
    rw [h0] at hkf
    simp at hkf
  obtain ⟨k', hk'⟩ : ∃ k', ((List.range' 1 n).filter p).getLast? = some k' := by
    cases hl : ((List.range' 1 n).filter p).getLast? with
    | none => rw [List.getLast?_eq_none_iff] at hl; exact absurd hl hne
    | some x => exact ⟨x, rfl⟩
  have hspec := getLast_filter_range'_spec hk'
  have h1 : k ≤ k' := le_of_pairwise_lt_getLast (filter_range'_pairwise_lt p) hk' k hkf
  have h2 : k' ≤ k := hmax k' hspec.1 hspec.2.1
  rw [hk']
  congr 1
  omega

theorem project_simplex_eq_of_getLast {v : Vec} {z : ℚ} {rho : ℕ}
    (h : ((List.range' 1 v.length).filter (psCond (sortDesc v) z)).getLast? = some rho) :
    project_simplex v z
      = .ok (v.map (fun x => max (x - psTheta (sortDesc v) z rho) 0)) := by
  simp [project_simplex, h]

theorem psCond_iff {u : Vec} {z : ℚ} {k : ℕ} (hk : 0 < k) :
    psCond u z k = true ↔ (u.take k).sum - z < u.getD (k - 1) 0 * (k : ℚ) := by
  unfold psCond
  rw [decide_eq_true_eq]
  have hkq : (0 : ℚ) < (k : ℚ) := by exact_mod_cast hk
  rw [sub_pos, div_lt_iff hkq]

theorem psCond_one {v : Vec} {z : ℚ} (hv : v ≠ []) (hz : 0 < z) :
    psCond (sortDesc v) z 1 = true := by
  have hlen : 0 < (sortDesc v).length := by
    rw [sortDesc_length]
    exact List.length_pos.mpr hv
  obtain ⟨a, t, hu⟩ : ∃ a t, sortDesc v = a :: t := by
    cases hu : sortDesc v with
    | nil => rw [hu] at hlen; simp at hlen
    | cons a t => exact ⟨a, t, rfl⟩
  rw [psCond_iff (by omega), hu]
  simp
  linarith

theorem take_gt_theta {u : Vec} {z : ℚ} {rho : ℕ}
    (hsort : u.Pairwise (fun a b : ℚ => b ≤ a))
    (h1 : 1 ≤ rho) (hn : rho ≤ u.length) (hcond : psCond u z rho = true) :
    ∀ x ∈ u.take rho, psTheta u z rho < x := by
  intro x hx
  obtain ⟨i, hilen, hget⟩ := List.mem_iff_getElem.mp hx
  have hirho : i < rho := by
    have := List.length_take rho u
    omega
  have hiu : i < u.length := by omega
  have hgx : u.getD i 0 = x := by
    rw [List.getD_eq_getElem _ _ hiu, ← hget, List.getElem_take]
  have hr1 : rho - 1 < u.length := by omega
  have hlast : psTheta u z rho < u.getD (rho - 1) 0 := by
    rw [psCond_iff (by omega)] at hcond
    unfold psTheta
    have hkq : (0 : ℚ) < (rho : ℚ) := by exact_mod_cast (by omega : 0 < rho)
    rw [div_lt_iff hkq]
    exact hcond
  have hmono : u.getD (rho - 1) 0 ≤ u.getD i 0 :=
    pairwise_ge_getD_mono hsort (by omega) hr1
  rw [← hgx]
  exact lt_of_lt_of_le hlast hmono

theorem drop_le_theta {u : Vec} {z : ℚ} {rho : ℕ}
    (hsort : u.Pairwise (fun a b : ℚ => b ≤ a))
    (h1 : 1 ≤ rho) (hn : rho ≤ u.length)
    (hnot : rho < u.length → psCond u z (rho + 1) = false) :
    ∀ x ∈ u.drop rho, x ≤ psTheta u z rho := by
  intro x hx
  have hlt : rho < u.length := by
    by_contra hge
    rw [List.drop_eq_nil_of_le (le_of_not_lt hge)] at hx
    simp at hx
  have hcnd := hnot hlt
  have hkey : u.getD rho 0 ≤ psTheta u z rho := by
    have hrq : (0 : ℚ) < (rho : ℚ) := by exact_mod_cast (by omega : 0 < rho)
    have hrq1 : (0 : ℚ) < ((rho + 1 : ℕ) : ℚ) := by exact_mod_cast (by omega : 0 < rho + 1)
    have hsum : (u.take (rho + 1)).sum = (u.take rho).sum + u.getD rho 0 := by
      rw [List.sum_take_succ _ _ hlt, List.getD_eq_getElem _ _ hlt]
    have hc : ¬ ((u.take (rho + 1)).sum - z < u.getD rho 0 * ((rho + 1 : ℕ) : ℚ)) := by
      intro hcc
      have := (psCond_iff (k := rho + 1) (by omega)).mpr (by simpa using hcc)
      rw [this] at hcnd
      simp at hcnd
    push_neg at hc
    rw [hsum] at hc
    unfold psTheta
    rw [le_div_iff hrq]
    push_cast at hc ⊢
    nlinarith [hc]
  obtain ⟨i, hilen, hget⟩ := List.mem_iff_getElem.mp hx
  have hdrop : x = u.getD (rho + i) 0 := by
    have hri : rho + i < u.length := by
      have := List.length_drop rho u
      omega
    rw [List.getD_eq_getElem _ _ hri, ← hget, List.getElem_drop]
  have hmono : u.getD (rho + i) 0 ≤ u.getD rho 0 :=
    pairwise_ge_getD_mono hsort (by omega) (by have := List.length_drop rho u; omega)
  rw [hdrop]
  exact le_trans hmono hkey

theorem sum_map_relu_all_gt {l : List ℚ} {θ : ℚ} (h : ∀ x ∈ l, θ < x) :
    (l.map (fun x => max (x - θ) 0)).sum = l.sum - l.length * θ := by
  induction l with
  | nil => simp
  | cons a t ih =>
    have ha : θ < a := h a (by simp)
    have hmx : max (a - θ) 0 = a - θ := max_eq_left (by linarith)
    have iht := ih (fun x hx => h x (by simp [hx]))
    simp only [List.map_cons, List.sum_cons, List.length_cons, hmx, iht]
    push_cast
    ring

theorem sum_map_relu_all_le {l : List ℚ} {θ : ℚ} (h : ∀ x ∈ l, x ≤ θ) :
    (l.map (fun x => max (x - θ) 0)).sum = 0 := by
  induction l with
  | nil => simp
  | cons a t ih =>
    have hmx : max (a - θ) 0 = 0 := max_eq_right (by have := h a (by simp); linarith)
    have iht := ih (fun x hx => h x (by simp [hx]))
    simp [hmx, iht]

theorem project_simplex_ok_spec {v : Vec} {z : ℚ} (hv : v ≠ []) (hz : 0 < z) :
    ∃ w, project_simplex v z = .ok w ∧ (∀ x ∈ w, 0 ≤ x) ∧ w.sum = z := by
  have hulen : (sortDesc v).length = v.length := sortDesc_length v
  have hsort := sortDesc_pairwise v
  have hnpos : 0 < v.length := List.length_pos.mpr hv
  have h1mem : 1 ∈ List.range' 1 v.length := by
    rw [List.mem_range'_1]
    omega
  have hc1 := psCond_one hv hz
  have hne : (List.range' 1 v.length).filter (psCond (sortDesc v) z) ≠ [] := by
    intro h0
    have hmem : (1 : ℕ) ∈ (List.range' 1 v.length).filter (psCond (sortDesc v) z) :=
      List.mem_filter.mpr ⟨h1mem, hc1⟩
    rw [h0] at hmem
    simp at hmem
  obtain ⟨rho, hrho⟩ :
      ∃ rho, ((List.range' 1 v.length).filter (psCond (sortDesc v) z)).getLast? = some rho := by
    cases hl : ((List.range' 1 v.length).filter (psCond (sortDesc v) z)).getLast? with
    | none => rw [List.getLast?_eq_none_iff] at hl; exact absurd hl hne
    | some x => exact ⟨x, rfl⟩
  obtain ⟨hrmem, hrcond, hrmax⟩ := getLast_filter_range'_spec hrho
  rw [List.mem_range'_1] at hrmem
  have hr1 : 1 ≤ rho := hrmem.1
  have hrn : rho ≤ v.length := by omega
  have hnot : rho < (sortDesc v).length → psCond (sortDesc v) z (rho + 1) = false := by
    intro hlt
    by_contra hcc
    have hcc' : psCond (sortDesc v) z (rho + 1) = true := by simpa using hcc
    have := hrmax (rho + 1) (by rw [List.mem_range'_1]; omega) hcc'
    omega
  have htake := take_gt_theta hsort hr1 (by omega) hrcond
  have hdrop := drop_le_theta hsort hr1 (by omega) hnot
  refine ⟨v.map (fun x => max (x - psTheta (sortDesc v) z rho) 0),
    project_simplex_eq_of_getLast hrho, ?_, ?_⟩
  · intro x hx
    obtain ⟨a, _, rfl⟩ := List.mem_map.mp hx
    exact le_max_right _ _
  · set θ := psTheta (sortDesc v) z rho with hθdef
    have hperm :
        (v.map (fun x => max (x - θ) 0)).Perm
          ((sortDesc v).map (fun x => max (x - θ) 0)) :=
      ((sortDesc_perm v).map _).symm
    rw [hperm.sum_eq]
    conv_lhs => rw [← List.take_append_drop rho (sortDesc v)]
    rw [List.map_append, List.sum_append, sum_map_relu_all_gt htake,
      sum_map_relu_all_le hdrop]
    have hlt : ((sortDesc v).take rho).length = rho := by
      rw [List.length_take]
      omega
    rw [hlt, hθdef]
    unfold psTheta
    have hrq : ((rho : ℚ)) ≠ 0 := by
      have : (0 : ℚ) < (rho : ℚ) := by exact_mod_cast (by omega : 0 < rho)
      linarith
    field_simp

theorem dropWhile_head_not {α : Type} (p : α → Bool) :
    ∀ (l : List α) (x : α) (xs : List α), l.dropWhile p = x :: xs → p x = false := by
  intro l
  induction l with
  | nil => intro x xs h; simp [List.dropWhile] at h
  | cons a t ih =>
    intro x xs h
    rw [List.dropWhile_cons] at h
    by_cases hpa : p a = true
    · rw [if_pos hpa] at h
      exact ih x xs h
    · rw [if_neg hpa] at h
      cases h
      simpa using hpa

theorem project_simplex_idem {v : Vec} {z : ℚ} (hz : 0 < z)
    (hpos : ∀ x ∈ v, 0 ≤ x) (hsum : v.sum = z) :
    project_simplex v z = .ok v := by
  have hulen : (sortDesc v).length = v.length := sortDesc_length v
  have hsort := sortDesc_pairwise v
  have hupos : ∀ x ∈ sortDesc v, 0 ≤ x := fun x hx =>
    hpos x (((sortDesc_perm v).mem_iff).mp hx)
  have husum : (sortDesc v).sum = z := by rw [(sortDesc_perm v).sum_eq, hsum]
  set u := sortDesc v with hu
  set p : ℚ → Bool := fun x => decide (0 < x) with hp
  have hsplit : u.takeWhile p ++ u.dropWhile p = u := List.takeWhile_append_dropWhile p u
  have htw_pos : ∀ x ∈ u.takeWhile p, 0 < x := by
    intro x hx
    have := List.mem_takeWhile_imp hx
    rw [hp] at this
    simpa using this
  have hdwu : ∀ x ∈ u.dropWhile p, x ∈ u := fun x hx =>
    (List.dropWhile_sublist p).subset hx
  have hdw0 : ∀ x ∈ u.dropWhile p, x = 0 := by
    cases hdw : u.dropWhile p with
    | nil => simp
    | cons d rest =>
      have hd_false : p d = false := dropWhile_head_not p u d rest hdw
      have hd_le : d ≤ 0 := by
        rw [hp] at hd_false
        simpa using hd_false
      have hd_ge : 0 ≤ d := hupos d (hdwu d (by rw [hdw]; simp))
      have hd0 : d = 0 := le_antisymm hd_le hd_ge
      intro x hx
      rcases List.mem_cons.mp hx with rfl | hx2
      · exact hd0
      · have hpair : (u.dropWhile p).Pairwise (fun a b : ℚ => b ≤ a) :=
          hsort.sublist (List.dropWhile_sublist p)
        rw [hdw] at hpair
        have hxd : x ≤ d := (List.pairwise_cons.mp hpair).1 x hx2
        have hx0 : 0 ≤ x := hupos x (hdwu x (by rw [hdw]; simp [hx2]))
        linarith
  set k := (u.takeWhile p).length with hk
  have hklen : k + (u.dropWhile p).length = u.length := by
    conv_rhs => rw [← hsplit]
    rw [List.length_append]
  have hk_le : k ≤ v.length := by omega
  have hdwsum : (u.dropWhile p).sum = 0 := List.sum_eq_zero hdw0
  have htwsum : (u.takeWhile p).sum = z := by
    have hcongr := congrArg List.sum hsplit
    rw [List.sum_append, hdwsum, add_zero] at hcongr
    rw [hcongr, husum]
  have hk1 : 1 ≤ k := by
    by_contra hk0
    have hknil : (u.takeWhile p) = [] := by
      rw [← List.length_eq_zero]
      omega
    rw [hknil] at htwsum
    simp at htwsum
    linarith
  have htake_tw : u.take k = u.takeWhile p := by
    conv_lhs => rw [← hsplit]
    exact List.take_left _ _
  have hgetk : u.getD (k - 1) 0 ∈ u.takeWhile p := by
    have hlt : k - 1 < (u.takeWhile p).length := by omega
    have heq : u.getD (k - 1) 0 = (u.takeWhile p).getD (k - 1) 0 := by
      conv_lhs => rw [← hsplit]
      exact List.getD_append _ _ _ _ hlt
    rw [heq, List.getD_eq_getElem _ _ hlt]
    exact List.getElem_mem hlt
  have hck : psCond u z k = true := by
    rw [psCond_iff (by omega), htake_tw, htwsum, sub_self]
    have hkq : (0 : ℚ) < (k : ℚ) := by exact_mod_cast (by omega : 0 < k)
    exact mul_pos (htw_pos _ hgetk) hkq
  have hnotj : ∀ j ∈ List.range' 1 v.length, psCond u z j = true → j ≤ k := by
    intro j hj hcj
    by_contra hgt
    push_neg at hgt
    rw [List.mem_range'_1] at hj
    have hujm : u.getD (j - 1) 0 = 0 := by
      conv_lhs => rw [← hsplit]
      rw [List.getD_append_right _ _ _ _ (by omega)]
      have hidx : j - 1 - k < (u.dropWhile p).length := by omega
      rw [List.getD_eq_getElem _ _ hidx]
      exact hdw0 _ (List.getElem_mem hidx)
    have hsumj : (u.take j).sum = z := by
      conv_lhs => rw [← hsplit]
      rw [List.take_append_eq_append_take, List.sum_append]
      have h1 : (u.takeWhile p).take j = u.takeWhile p :=
        List.take_of_length_le (by omega)
      have h2 : (((u.dropWhile p).take (j - (u.takeWhile p).length))).sum = 0 :=
        List.sum_eq_zero (fun x hx => hdw0 x (List.take_subset _ _ hx))
      rw [h1, h2, htwsum, add_zero]
    rw [psCond_iff (by omega), hujm, hsumj, sub_self, zero_mul] at hcj
    exact lt_irrefl 0 hcj
  have hkmem : k ∈ List.range' 1 v.length := by
    rw [List.mem_range'_1]
    have : 0 < v.length := by omega
    omega
  have hlast := getLast_filter_range'_eq hkmem hck hnotj
  have hθ : psTheta u z k = 0 := by
    unfold psTheta
    rw [htake_tw, htwsum, sub_self, zero_div]
  rw [project_simplex_eq_of_getLast hlast]
  rw [← hu, hθ]
  have hmapid : v.map (fun x => max (x - 0) 0) = v := by
    conv_rhs => rw [← List.map_id v]
    apply List.map_congr_left
    intro x hx
    simp only [sub_zero, id_eq]
    exact max_eq_left (hpos x hx)
  rw [hmapid]

/-- C6 (amended to non-empty inputs): for a non-empty `v` and `z > 0`,
`project_simplex` returns a vector whose entries are nonnegative and sum to
exactly `z`; and if `v` already lies on the simplex of radius `z`
(nonnegative entries summing to `z`), it is returned unchanged. -/
theorem claim_C6_simplex_projection (v : Vec) (z : ℚ) (hv : v ≠ []) (hz : 0 < z) :
    (∃ w, project_simplex v z = .ok w ∧ (∀ x ∈ w, 0 ≤ x) ∧ w.sum = z) ∧
    ((∀ x ∈ v, 0 ≤ x) → v.sum = z → project_simplex v z = .ok v) :=
  ⟨project_simplex_ok_spec hv hz,
   fun hpos hsum => project_simplex_idem hz hpos hsum⟩

/-- C6 counterexample to the claim as stated: on the empty input vector with
radius `1 > 0`, `project_simplex` raises `IndexError` (`ind[cond]` is empty)
instead of returning a vector summing to the radius. -/
theorem claim_C6_counterexample :
    project_simplex ([] : Vec) 1 = .error .indexError ∧ (0 : ℚ) < 1 :=
  ⟨rfl, by norm_num⟩

/-- C6 witness: `v = [1/2]`, `z = 1`. -/
theorem claim_C6_witness :
    (∃ w, project_simplex [(1 : ℚ)/2] 1 = .ok w ∧ (∀ x ∈ w, 0 ≤ x) ∧ w.sum = 1) ∧
    ((∀ x ∈ [(1 : ℚ)/2], 0 ≤ x) → List.sum [(1 : ℚ)/2] = 1 →
      project_simplex [(1 : ℚ)/2] 1 = .ok [(1 : ℚ)/2]) :=
  claim_C6_simplex_projection [(1 : ℚ)/2] 1 (by simp) (by norm_num)

/-- C10: for a non-empty `v` and `z > 0`, the selection condition of
`project_simplex` holds at `k = 1` (where it reduces to `z > 0`), so the
admissible index set is non-empty and the projection never fails with the
empty-index error. -/
theorem claim_C10_simplex_selection_welldefined (v : Vec) (z : ℚ)
    (hv : v ≠ []) (hz : 0 < z) :
    psCond (sortDesc v) z 1 = true ∧ ∃ w, project_simplex v z = .ok w := by
  refine ⟨psCond_one hv hz, ?_⟩
  obtain ⟨w, hw, -, -⟩ := project_simplex_ok_spec hv hz
  exact ⟨w, hw⟩

/-- C10 witness: `v = [2]`, `z = 1`. -/
theorem claim_C10_witness :
    psCond (sortDesc [(2 : ℚ)]) 1 1 = true ∧
    ∃ w, project_simplex [(2 : ℚ)] 1 = .ok w :=
  claim_C10_simplex_selection_welldefined [(2 : ℚ)] 1 (by simp) (by norm_num)
